import Mathlib

/-!
Verification development for `powerspec.py` (averaged power spectra of an
evenly sampled light curve, with geometric frequency rebinning).

The Python source is shallowly embedded below.  Machine floats are embedded
as exact rationals (`ℚ`), Python ints as `ℤ`/`ℕ`.  Python runtime failures
(IndexError from list subscripts, ZeroDivisionError from division by zero)
are embedded with `Except PyErr`; Python list subscripts wrap negative
indices, as modelled by `pyGet`.  Loops whose termination is data dependent
(the rebinning while loop of `geometric_rebinning`, which need not terminate
for a rebin constant below 1) are embedded with explicit fuel: a result of
`none` means the fuel was exhausted with the loop still running, so a
`some` result is a faithful image of a terminating run.
-/

/-- Runtime errors of the embedded Python fragments. -/
inductive PyErr where
  | indexError : PyErr
  | zeroDivisionError : PyErr
deriving DecidableEq

/-- Python list subscript `xs[i]`: indices `0 ≤ i < len` are direct, indices
`-len ≤ i < 0` wrap around to `len + i`, anything else raises IndexError. -/
def pyGet (xs : List ℚ) (i : ℤ) : Except PyErr ℚ :=
  if 0 ≤ i then
    (if i < (xs.length : ℤ) then Except.ok (xs.getD i.toNat 0)
     else Except.error PyErr.indexError)
  else
    (if 0 ≤ i + (xs.length : ℤ) then Except.ok (xs.getD (i + (xs.length : ℤ)).toNat 0)
     else Except.error PyErr.indexError)

/-- Consecutive integers `a, a+1, ...` of the given count. -/
def pyRange_loop : ℕ → ℤ → List ℤ
  | 0, _ => []
  | Nat.succ n, a => a :: pyRange_loop n (a + 1)

/-- Python `range(a, b)` over ints: `[a, a+1, ..., b-1]`, empty when `b ≤ a`. -/
def pyRange (a b : ℤ) : List ℤ :=
  pyRange_loop (b - a).toNat a

/-- Python 2 `round`: round half away from zero. -/
def pyRound (x : ℚ) : ℤ :=
  if 0 ≤ x then ⌊x + 1 / 2⌋ else -⌊-x + 1 / 2⌋

/-- Python `int(...)` on a number: truncation toward zero. -/
def pyInt (x : ℚ) : ℤ :=
  if 0 ≤ x then ⌊x⌋ else -⌊-x⌋

/-!  `power_of_two` (powerspec.py lines 34-45).  The source doubles a float
`x` starting from `2.0` while `x < n and x < 2147483648`, then reports
`n == x`; the values taken by `x` are exact powers of two so the float
arithmetic is exact and is embedded over `ℤ`.  The while loop runs at most
30 iterations (after 30 doublings `x = 2^31` and the cap `x < 2147483648`
fails), so fuel 40 is beyond what the loop can consume and the fuelled
recursion below is exactly the source loop. -/

/-- Loop of `power_of_two`: double `x` while `x < n` and `x < 2147483648`,
returning the final `x` (powerspec.py lines 41-42). -/
def pot_loop : ℕ → ℤ → ℤ → ℤ
  | 0, x, _ => x
  | Nat.succ fuel, x, n =>
    if x < n ∧ x < 2147483648 then pot_loop fuel (2 * x) n else x

/-- Determines whether `num` is a power of two (powerspec.py lines 34-45).
Note the doubling search is capped at `2^31`. -/
def power_of_two (num : ℤ) : Bool :=
  if num = 1 then true else num == pot_loop 40 2 num

/-- Input validation of `main` (powerspec.py lines 277-279): the three
`assert` statements, executed before any data file is opened.  They mention
only `num_seconds` and `rebin_const`; `dt` and `n_bins` are not available
yet and are not checked. -/
def main_checks (num_seconds : ℤ) (rebin_const : ℚ) : Bool :=
  decide (0 < num_seconds) && decide ((1 : ℚ) ≤ rebin_const) && power_of_two num_seconds

/-- Number of time bins per segment, `n_bins = num_seconds * int(1.0/dt)`
(powerspec.py line 302). -/
def n_bins (num_seconds : ℤ) (dt : ℚ) : ℤ :=
  num_seconds * pyInt (1 / dt)

/-!  Segmenter (powerspec.py lines 313-373).  The source walks the light
curve with `i = 0`, `j = n_bins`, looping `while j < len(data)`, processing
the slice `[i, j)` and then setting `i = j; j += n_bins`.  The embedding
records the list of processed `(i, j)` windows.  For `n_bins ≥ 1` the loop
performs at most `len` iterations, so fuel `len + 1` never runs out. -/

/-- Loop of the segmenter: emits the processed windows `(i, j)`. -/
def seg_loop : ℕ → ℕ → ℕ → ℕ → ℕ → List (ℕ × ℕ)
  | 0, _, _, _, _ => []
  | Nat.succ fuel, len, nb, i, j =>
    if j < len then (i, j) :: seg_loop fuel len nb j (j + nb) else []

/-- Windows `[i, j)` processed by the segment loop on a light curve of
`len` samples with `nb` bins per segment. -/
def segments (len nb : ℕ) : List (ℕ × ℕ) :=
  seg_loop (len + 1) len nb 0 nb

/-- Value of the `num_segments` counter after the segment loop. -/
def num_segments (len nb : ℕ) : ℕ :=
  (segments len nb).length

/-!  Periodogram of one segment (powerspec.py lines 346-358). -/

/-- Mean count rate of one segment, `np.mean(rate)` (line 346). -/
def mean_rate_segment (rate : List ℚ) : ℚ :=
  rate.sum / (rate.length : ℚ)

/-- Demeaned rates, `[x - mean_rate_segment for x in rate]` (line 350). -/
def rate_sub_mean (rate : List ℚ) : List ℚ :=
  rate.map (fun x => x - mean_rate_segment rate)

/-- DFT bin 0 of a real sequence: every twiddle factor is `exp(0) = 1`, so
bin 0 of `fftpack.fft` is the plain sum of the inputs (line 355, bin 0). -/
def fft_bin0 (xs : List ℚ) : ℚ :=
  xs.sum

/-- Power of DFT bin 0 of one segment, `np.absolute(fft_data)**2` at index 0
(line 358): the bin-0 transform value is real, so its squared modulus is its
square. -/
def power_segment_bin0 (rate : List ℚ) : ℚ :=
  (fft_bin0 (rate_sub_mean rate)) ^ 2

/-- Cross-segment averaging step (powerspec.py lines 378-379):
`power_avg = [x / float(num_segments) for x in power_avg]` followed by
`mean_rate_whole /= float(num_segments)`.  Python float division by zero
raises ZeroDivisionError, which is exactly what the source does when
`num_segments == 0`; there is no dedicated error for this case. -/
def averaging (power_avg : List ℚ) (mean_rate_whole : ℚ) (nseg : ℕ) :
    Except PyErr (List ℚ × ℚ) :=
  if nseg = 0 then Except.error PyErr.zeroDivisionError
  else Except.ok
    (power_avg.map (fun x => x / (nseg : ℚ)), mean_rate_whole / (nseg : ℚ))

/-!  Frequency array and truncation (powerspec.py lines 383-398). -/

/-- Bins of `np.fft.fftfreq(n)` (d = 1): the first `(n-1)/2 + 1` entries are
`0, 1/n, 2/n, ...`, the remaining entries are `-(n/2)/n, ..., -1/n`. -/
def fftfreq (n : ℕ) : List ℚ :=
  ((List.range ((n - 1) / 2 + 1)).map (fun (k : ℕ) => (k : ℚ) / (n : ℚ))) ++
    ((List.range (n - ((n - 1) / 2 + 1))).map
      (fun (k : ℕ) => (((k : ℤ) - ((n / 2 : ℕ) : ℤ) : ℤ) : ℚ) / (n : ℚ)))

/-- The frequency array of `main`, `[x * int(1.0/dt) for x in sample_freq]`
(line 391), with the integer scale `s = int(1.0/dt)` abstracted. -/
def freq_list (n : ℕ) (s : ℤ) : List ℚ :=
  (fftfreq n).map (fun x => x * (s : ℚ))

/-- Python `max` of a list of numbers (maximum value, empty list excluded by
use sites). -/
def listMax : List ℚ → ℚ
  | [] => 0
  | x :: xs => xs.foldl max x

/-- Index used for truncation, `freq.index(max(freq))` (line 395): position
of the first occurrence of the maximum. -/
def max_index (xs : List ℚ) : ℕ :=
  xs.indexOf (listMax xs)

/-- Truncated frequency array, `freq[0:max_index+1]` (line 396). -/
def freq_trunc (n : ℕ) (s : ℤ) : List ℚ :=
  (freq_list n s).take (max_index (freq_list n s) + 1)

/-!  Normalization (powerspec.py lines 404, 407, 421).  Note the denominator
written in the source is `(1.0/dt) * num_seconds`, not `n_bins`
(`n_bins = num_seconds * int(1.0/dt)` applies `int` to `1.0/dt` first). -/

/-- Leahy normalization (line 404). -/
def leahy_power_avg (power_avg : List ℚ) (dt : ℚ) (num_seconds : ℤ)
    (mean_rate_whole : ℚ) : List ℚ :=
  power_avg.map (fun x => 2 * x * dt / ((1 / dt) * (num_seconds : ℚ)) / mean_rate_whole)

/-- Fractional rms normalization (line 407). -/
def rms_power_avg (power_avg : List ℚ) (dt : ℚ) (num_seconds : ℤ)
    (mean_rate_whole : ℚ) : List ℚ :=
  power_avg.map (fun x =>
    2 * x * dt / ((1 / dt) * (num_seconds : ℚ)) / mean_rate_whole ^ 2 - 2 / mean_rate_whole)

/-- Error on the fractional rms power (line 421), as a function of the
`err_power` list computed on line 401. -/
def rms_err_power (err_power : List ℚ) (dt : ℚ) (num_seconds : ℤ)
    (mean_rate_whole : ℚ) : List ℚ :=
  err_power.map (fun x =>
    2 * x * dt / ((1 / dt) * (num_seconds : ℚ)) / mean_rate_whole ^ 2)

/-- Modelled from the spec: Leahy normalization with `n_bins` as the
denominator, `leahy[k] = 2 * avg_power[k] * dt / n_bins / mean_rate_whole`,
for comparison with `leahy_power_avg`. -/
def spec_leahy (avg_power : List ℚ) (dt : ℚ) (nb : ℤ) (mean_rate_whole : ℚ) : List ℚ :=
  avg_power.map (fun x => 2 * x * dt / (nb : ℚ) / mean_rate_whole)

/-- Modelled from the spec: fractional rms normalization with `n_bins` as
the denominator, for comparison with `rms_power_avg`. -/
def spec_rms (avg_power : List ℚ) (dt : ℚ) (nb : ℤ) (mean_rate_whole : ℚ) : List ℚ :=
  avg_power.map (fun x => 2 * x * dt / (nb : ℚ) / mean_rate_whole ^ 2 - 2 / mean_rate_whole)

/-- Modelled from the spec: rms error normalization with `n_bins` as the
denominator, for comparison with `rms_err_power`. -/
def spec_rms_err (err_power : List ℚ) (dt : ℚ) (nb : ℤ) (mean_rate_whole : ℚ) : List ℚ :=
  err_power.map (fun x => 2 * x * dt / (nb : ℚ) / mean_rate_whole ^ 2)

/-!  Geometric rebinning (powerspec.py lines 52-148).  The loop state
carries the source variables `prev_m`, `current_m`, `real_index` and the
three output lists.  The emitted error is `sqrt(err_bin_power2)/bin_range`
(line 134); since square roots leave `ℚ`, the embedding stores its square
`err_bin_power2 / bin_range^2`, which determines the emitted (nonnegative)
value uniquely.  The ghost field `groups` records the pair
`(prev_m, current_m)` of every emitted geometric bin; it shadows the index
bookkeeping and produces no data. -/

/-- State of the `geometric_rebinning` while loop. -/
structure RebinState where
  prev_m : ℤ
  current_m : ℤ
  real_index : ℚ
  rebinned_freq : List ℚ
  rebinned_rms_power : List ℚ
  err_rebinned_power_sq : List ℚ
  groups : List (ℤ × ℤ)

/-- Inner for loop of `geometric_rebinning` (lines 106-112): accumulate
`bin_power += rms_power_avg[k]` and `err_bin_power2 += rms_err_power[k]**2`
over the index list, propagating an IndexError. -/
def sum_bin (rms_power_avg rms_err_power : List ℚ) :
    List ℤ → ℚ → ℚ → Except PyErr (ℚ × ℚ)
  | [], bp, e2 => Except.ok (bp, e2)
  | k :: ks, bp, e2 =>
    match pyGet rms_power_avg k with
    | Except.error e => Except.error e
    | Except.ok p =>
      match pyGet rms_err_power k with
      | Except.error e => Except.error e
      | Except.ok er => sum_bin rms_power_avg rms_err_power ks (bp + p) (e2 + er ^ 2)

/-- One iteration of the `geometric_rebinning` while loop (lines 98-140):
sum the bin, divide by `bin_range` (ZeroDivisionError when it is zero),
compute the mean frequency, override both when `bin_range == 1`, append the
outputs and advance `prev_m`, `real_index`, `current_m`. -/
def rebin_body (rms_power_avg rms_err_power freq : List ℚ) (rebin_const : ℚ)
    (s : RebinState) : Except PyErr RebinState :=
  match sum_bin rms_power_avg rms_err_power (pyRange s.prev_m s.current_m) 0 0 with
  | Except.error e => Except.error e
  | Except.ok (bp, e2) =>
    if |s.current_m - s.prev_m| = 0 then Except.error PyErr.zeroDivisionError
    else
      match pyGet freq s.current_m with
      | Except.error e => Except.error e
      | Except.ok fc =>
        match pyGet freq s.prev_m with
        | Except.error e => Except.error e
        | Except.ok fp =>
          match (if |s.current_m - s.prev_m| = 1 then
                   match pyGet rms_power_avg s.prev_m with
                   | Except.error e => Except.error e
                   | Except.ok p1 =>
                     match pyGet freq s.prev_m with
                     | Except.error e => Except.error e
                     | Except.ok f1 => Except.ok (p1, f1)
                 else Except.ok (bp / ((|s.current_m - s.prev_m| : ℤ) : ℚ),
                   (fc - fp) / ((|s.current_m - s.prev_m| : ℤ) : ℚ) + fp)) with
          | Except.error e => Except.error e
          | Except.ok (bpw, bfq) =>
            Except.ok
              { prev_m := s.current_m
                current_m := s.current_m + pyRound (s.real_index * rebin_const)
                real_index := s.real_index * rebin_const
                rebinned_freq := s.rebinned_freq ++ [bfq]
                rebinned_rms_power := s.rebinned_rms_power ++ [bpw]
                err_rebinned_power_sq := s.err_rebinned_power_sq ++
                  [e2 / ((|s.current_m - s.prev_m| : ℤ) : ℚ) ^ 2]
                groups := s.groups ++ [(s.prev_m, s.current_m)] }

/-- Fuelled while loop of `geometric_rebinning` (line 94): loop while
`current_m < length_of_list`.  `none` means the fuel ran out with the loop
condition still true. -/
def rebin_loop (rms_power_avg rms_err_power freq : List ℚ) (rebin_const : ℚ)
    (length_of_list : ℕ) : ℕ → RebinState → Option (Except PyErr RebinState)
  | 0, s =>
    if s.current_m < (length_of_list : ℤ) then none else some (Except.ok s)
  | Nat.succ fuel, s =>
    if s.current_m < (length_of_list : ℤ) then
      match rebin_body rms_power_avg rms_err_power freq rebin_const s with
      | Except.error e => some (Except.error e)
      | Except.ok s1 =>
        rebin_loop rms_power_avg rms_err_power freq rebin_const length_of_list fuel s1
    else some (Except.ok s)

/-- Initial state of `geometric_rebinning` (lines 81-84): `prev_m = 0`,
`current_m = 1`, `real_index = 1.0`, empty outputs. -/
def rebin_start : RebinState :=
  { prev_m := 0, current_m := 1, real_index := 1,
    rebinned_freq := [], rebinned_rms_power := [],
    err_rebinned_power_sq := [], groups := [] }

/-- Full run of the `geometric_rebinning` loop from the initial state. -/
def rebin_run (rms_power_avg rms_err_power freq : List ℚ) (rebin_const : ℚ)
    (length_of_list fuel : ℕ) : Option (Except PyErr RebinState) :=
  rebin_loop rms_power_avg rms_err_power freq rebin_const length_of_list fuel rebin_start

/-- Function `geometric_rebinning` (lines 52-148): the returned triple
`(rebinned_freq, rebinned_rms_power, err_rebinned_power)`, the last
component represented by its square. -/
def geometric_rebinning (rms_power_avg rms_err_power freq : List ℚ)
    (rebin_const : ℚ) (length_of_list fuel : ℕ) :
    Option (Except PyErr (List ℚ × List ℚ × List ℚ)) :=
  (rebin_run rms_power_avg rms_err_power freq rebin_const length_of_list fuel).map
    (fun r => r.map (fun s =>
      (s.rebinned_freq, s.rebinned_rms_power, s.err_rebinned_power_sq)))

/-- Decides that a list of index groups is an adjacent chain from `a` to
`b`: each group is nonempty, starts where the previous one ended, the first
starts at `a` and the last ends at `b`. -/
def chainFrom : ℤ → List (ℤ × ℤ) → ℤ → Bool
  | a, [], b => a == b
  | a, (x, y) :: gs, b => (x == a) && (decide (x < y)) && chainFrom y gs b

/-- First `p` entries of an unbinned column, read by original index. -/
def unbinned_prefix (xs : List ℚ) (p : ℕ) : List ℚ :=
  (List.range p).map (fun k => xs.getD k 0)

/-- Final state of the concrete rebinning run used as a test vector:
inputs `rms = [10, 20, 30, 40]`, `err = [1, 2, 3, 4]`,
`freq = [0, 7, 11, 13]`, `rebin_const = 11/10`, `length_of_list = 4`. -/
def stateA : RebinState :=
  { prev_m := 3, current_m := 4, real_index := 1331 / 1000,
    rebinned_freq := [0, 7, 11], rebinned_rms_power := [10, 20, 30],
    err_rebinned_power_sq := [1, 4, 9],
    groups := [(0, 1), (1, 2), (2, 3)] }

/-!  Concrete evaluations of the rebinning loop used by several checks. -/

set_option maxRecDepth 2000 in
/-- Concrete run of the rebinning loop on the `stateA` test vector:
with `rebin_const = 11/10` the three rounded increments are all 1. -/
theorem rebin_evalA :
    rebin_run [10, 20, 30, 40] [1, 2, 3, 4] [0, 7, 11, 13] (11 / 10) 4 4 =
      some (Except.ok stateA) := by
  have b1 : rebin_body [10, 20, 30, 40] [1, 2, 3, 4] [0, 7, 11, 13] (11 / 10)
      { prev_m := 0, current_m := 1, real_index := 1, rebinned_freq := [],
        rebinned_rms_power := [], err_rebinned_power_sq := [], groups := [] } =
      Except.ok
      { prev_m := 1, current_m := 2, real_index := 11 / 10, rebinned_freq := [0],
        rebinned_rms_power := [10], err_rebinned_power_sq := [1], groups := [(0, 1)] } := by
    norm_num [rebin_body, sum_bin, pyGet, pyRange, pyRange_loop, pyRound]
    all_goals simp only [Int.reduceToNat]
    all_goals norm_num
  have b2 : rebin_body [10, 20, 30, 40] [1, 2, 3, 4] [0, 7, 11, 13] (11 / 10)
      { prev_m := 1, current_m := 2, real_index := 11 / 10, rebinned_freq := [0],
        rebinned_rms_power := [10], err_rebinned_power_sq := [1], groups := [(0, 1)] } =
      Except.ok
      { prev_m := 2, current_m := 3, real_index := 121 / 100, rebinned_freq := [0, 7],
        rebinned_rms_power := [10, 20], err_rebinned_power_sq := [1, 4],
        groups := [(0, 1), (1, 2)] } := by
    norm_num [rebin_body, sum_bin, pyGet, pyRange, pyRange_loop, pyRound]
    all_goals simp only [Int.reduceToNat]
    all_goals norm_num
  have b3 : rebin_body [10, 20, 30, 40] [1, 2, 3, 4] [0, 7, 11, 13] (11 / 10)
      { prev_m := 2, current_m := 3, real_index := 121 / 100, rebinned_freq := [0, 7],
        rebinned_rms_power := [10, 20], err_rebinned_power_sq := [1, 4],
        groups := [(0, 1), (1, 2)] } =
      Except.ok
      { prev_m := 3, current_m := 4, real_index := 1331 / 1000,
        rebinned_freq := [0, 7, 11], rebinned_rms_power := [10, 20, 30],
        err_rebinned_power_sq := [1, 4, 9], groups := [(0, 1), (1, 2), (2, 3)] } := by
    norm_num [rebin_body, sum_bin, pyGet, pyRange, pyRange_loop, pyRound]
    all_goals simp only [Int.reduceToNat]
    all_goals norm_num
  norm_num [rebin_run, rebin_loop, rebin_start, stateA, b1, b2, b3]

set_option maxRecDepth 2000 in
/-- Concrete run of the rebinning loop with `rebin_const = -2` on length-4
inputs: the fourth iteration reads `freq[-5]`, which is out of range for a
length-4 list, so the run raises IndexError. -/
theorem rebin_evalB :
    rebin_run [1, 1, 1, 1] [1, 1, 1, 1] [0, 1, 2, 3] (-2) 4 5 =
      some (Except.error PyErr.indexError) := by
  have b1 : rebin_body [1, 1, 1, 1] [1, 1, 1, 1] [0, 1, 2, 3] (-2)
      { prev_m := 0, current_m := 1, real_index := 1, rebinned_freq := [],
        rebinned_rms_power := [], err_rebinned_power_sq := [], groups := [] } =
      Except.ok
      { prev_m := 1, current_m := -1, real_index := -2, rebinned_freq := [0],
        rebinned_rms_power := [1], err_rebinned_power_sq := [1], groups := [(0, 1)] } := by
    norm_num [rebin_body, sum_bin, pyGet, pyRange, pyRange_loop, pyRound]
    all_goals simp only [Int.reduceToNat]
    all_goals norm_num
  have b2 : rebin_body [1, 1, 1, 1] [1, 1, 1, 1] [0, 1, 2, 3] (-2)
      { prev_m := 1, current_m := -1, real_index := -2, rebinned_freq := [0],
        rebinned_rms_power := [1], err_rebinned_power_sq := [1], groups := [(0, 1)] } =
      Except.ok
      { prev_m := -1, current_m := 3, real_index := 4, rebinned_freq := [0, 2],
        rebinned_rms_power := [1, 0], err_rebinned_power_sq := [1, 0],
        groups := [(0, 1), (1, -1)] } := by
    norm_num [rebin_body, sum_bin, pyGet, pyRange, pyRange_loop, pyRound]
    all_goals simp only [Int.reduceToNat]
    all_goals norm_num
  have b3 : rebin_body [1, 1, 1, 1] [1, 1, 1, 1] [0, 1, 2, 3] (-2)
      { prev_m := -1, current_m := 3, real_index := 4, rebinned_freq := [0, 2],
        rebinned_rms_power := [1, 0], err_rebinned_power_sq := [1, 0],
        groups := [(0, 1), (1, -1)] } =
      Except.ok
      { prev_m := 3, current_m := -5, real_index := -8, rebinned_freq := [0, 2, 3],
        rebinned_rms_power := [1, 0, 1], err_rebinned_power_sq := [1, 0, 1 / 4],
        groups := [(0, 1), (1, -1), (-1, 3)] } := by
    norm_num [rebin_body, sum_bin, pyGet, pyRange, pyRange_loop, pyRound]
    all_goals simp only [Int.reduceToNat]
    all_goals norm_num
  have b4 : rebin_body [1, 1, 1, 1] [1, 1, 1, 1] [0, 1, 2, 3] (-2)
      { prev_m := 3, current_m := -5, real_index := -8, rebinned_freq := [0, 2, 3],
        rebinned_rms_power := [1, 0, 1], err_rebinned_power_sq := [1, 0, 1 / 4],
        groups := [(0, 1), (1, -1), (-1, 3)] } =
      Except.error PyErr.indexError := by
    norm_num [rebin_body, sum_bin, pyGet, pyRange, pyRange_loop, pyRound]
    all_goals simp only [Int.reduceToNat]
    all_goals norm_num
  norm_num [rebin_run, rebin_loop, rebin_start, b1, b2, b3, b4]

/-!  Basic facts about the embedded Python primitives. -/

/-- In-bounds subscripts succeed and return the list entry. -/
theorem pyGet_ok (xs : List ℚ) (i : ℤ) (h0 : 0 ≤ i) (hl : i < (xs.length : ℤ)) :
    pyGet xs i = Except.ok (xs.getD i.toNat 0) := by
  unfold pyGet
  rw [if_pos h0, if_pos hl]

/-- Membership in `pyRange_loop` gives the expected integer bounds. -/
theorem pyRange_loop_mem : ∀ (n : ℕ) (a k : ℤ), k ∈ pyRange_loop n a → a ≤ k ∧ k < a + n := by
  intro n
  induction n with
  | zero => intro a k hk; simp [pyRange_loop] at hk
  | succ n ih =>
    intro a k hk
    rw [pyRange_loop] at hk
    rcases List.mem_cons.mp hk with h | h
    · subst h; constructor <;> omega
    · have := ih (a + 1) k h
      push_cast at this ⊢
      omega

/-- Membership in a Python range gives the expected bounds. -/
theorem pyRange_mem (a b k : ℤ) (h : k ∈ pyRange a b) : a ≤ k ∧ k < b := by
  have h2 := pyRange_loop_mem _ _ _ h
  rcases le_or_lt b a with hba | hab
  · rw [pyRange, Int.toNat_of_nonpos (by omega)] at h
    simp [pyRange_loop] at h
  · rw [Int.toNat_of_nonneg (by omega)] at h2
    omega

/-- A nonempty Python range splits off its first element. -/
theorem pyRange_cons (a b : ℤ) (h : a < b) : pyRange a b = a :: pyRange (a + 1) b := by
  unfold pyRange
  rw [show (b - a).toNat = (b - (a + 1)).toNat + 1 by omega]
  rw [pyRange_loop]

/-- An empty Python range. -/
theorem pyRange_empty (a b : ℤ) (h : b ≤ a) : pyRange a b = [] := by
  unfold pyRange
  rw [Int.toNat_of_nonpos (by omega)]
  rfl

/-- Rounding a value that is at least one yields at least one. -/
theorem pyRound_ge_one (x : ℚ) (hx : 1 ≤ x) : 1 ≤ pyRound x := by
  unfold pyRound
  rw [if_pos (by linarith)]
  rw [Int.le_floor]
  push_cast
  linarith

/-- The inner summation loop succeeds when every index is in bounds for both
lists. -/
theorem sum_bin_ok (A B : List ℚ) (ks : List ℤ) :
    ∀ (bp e2 : ℚ),
      (∀ k ∈ ks, 0 ≤ k ∧ k < (A.length : ℤ) ∧ k < (B.length : ℤ)) →
      ∃ v, sum_bin A B ks bp e2 = Except.ok v := by
  induction ks with
  | nil => intro bp e2 _; exact ⟨(bp, e2), rfl⟩
  | cons k ks ih =>
    intro bp e2 h
    obtain ⟨h0, hA2, hB2⟩ := h k (List.mem_cons_self k ks)
    obtain ⟨v, hv⟩ := ih (bp + A.getD k.toNat 0) (e2 + (B.getD k.toNat 0) ^ 2)
      (fun j hj => h j (List.mem_cons_of_mem k hj))
    refine ⟨v, ?_⟩
    rw [sum_bin, pyGet_ok A k h0 hA2, pyGet_ok B k h0 hB2]
    exact hv

/-!  Structure of a successful rebinning iteration. -/

/-- Any successful iteration of the rebinning loop advances the state the
same way: `prev_m` becomes `current_m`, `real_index` is multiplied by the
rebin constant, `current_m` advances by the rounded `real_index`, and each
output list (and the ghost group list) grows by exactly one entry. -/
theorem rebin_body_fields (A B F : List ℚ) (c : ℚ) (s s1 : RebinState)
    (h : rebin_body A B F c s = Except.ok s1) :
    s1.prev_m = s.current_m ∧
    s1.current_m = s.current_m + pyRound (s.real_index * c) ∧
    s1.real_index = s.real_index * c ∧
    (∃ u, s1.rebinned_freq = s.rebinned_freq ++ [u]) ∧
    (∃ u, s1.rebinned_rms_power = s.rebinned_rms_power ++ [u]) ∧
    (∃ u, s1.err_rebinned_power_sq = s.err_rebinned_power_sq ++ [u]) ∧
    s1.groups = s.groups ++ [(s.prev_m, s.current_m)] := by
  unfold rebin_body at h
  repeat' split at h
  any_goals exact Except.noConfusion h
  all_goals
    injection h with h
    subst h
    exact ⟨rfl, rfl, rfl, ⟨_, rfl⟩, ⟨_, rfl⟩, ⟨_, rfl⟩, rfl⟩

/-- With `0 ≤ prev_m < current_m < L` and all three input lists of length at
least `L`, one iteration of the rebinning loop cannot fail: every subscript
is in range and `bin_range` is positive. -/
theorem rebin_body_ok (A B F : List ℚ) (c : ℚ) (L : ℕ) (s : RebinState)
    (hp0 : 0 ≤ s.prev_m) (hpc : s.prev_m < s.current_m) (hcL : s.current_m < (L : ℤ))
    (hA : L ≤ A.length) (hB : L ≤ B.length) (hF : L ≤ F.length) :
    ∃ s1, rebin_body A B F c s = Except.ok s1 := by
  have hAcast0 : (L : ℤ) ≤ (A.length : ℤ) := by exact_mod_cast hA
  have hBcast0 : (L : ℤ) ≤ (B.length : ℤ) := by exact_mod_cast hB
  have hmem : ∀ k ∈ pyRange s.prev_m s.current_m,
      0 ≤ k ∧ k < (A.length : ℤ) ∧ k < (B.length : ℤ) := by
    intro k hk
    obtain ⟨h1, h2⟩ := pyRange_mem _ _ _ hk
    exact ⟨le_trans hp0 h1, by omega, by omega⟩
  obtain ⟨v, hsum⟩ := sum_bin_ok A B (pyRange s.prev_m s.current_m) 0 0 hmem
  obtain ⟨bp, e2⟩ := v
  have hAcast : (L : ℤ) ≤ (A.length : ℤ) := by exact_mod_cast hA
  have hBcast : (L : ℤ) ≤ (B.length : ℤ) := by exact_mod_cast hB
  have hFcast : (L : ℤ) ≤ (F.length : ℤ) := by exact_mod_cast hF
  have hgc := pyGet_ok F s.current_m (by omega) (by omega)
  have hgp := pyGet_ok F s.prev_m hp0 (by omega)
  have hga := pyGet_ok A s.prev_m hp0 (by omega)
  unfold rebin_body
  simp only [hsum, hgc, hgp, hga]
  rw [if_neg (show ¬|s.current_m - s.prev_m| = 0 by
    rw [abs_of_pos (show (0:ℤ) < s.current_m - s.prev_m by omega)]
    omega)]
  by_cases h1 : |s.current_m - s.prev_m| = 1
  · rw [if_pos h1]
    exact ⟨_, rfl⟩
  · rw [if_neg h1]
    exact ⟨_, rfl⟩

/-- With `current_m = prev_m + 1` (a unit geometric bin) and in-bounds
inputs, one iteration emits exactly the original column entries at index
`prev_m`: the overriding branch of the source (lines 126-128) fires, so no
averaging happens, and the emitted squared error is `rms_err_power[prev_m]^2`. -/
theorem rebin_body_unit (A B F : List ℚ) (c : ℚ) (L : ℕ) (s : RebinState)
    (hp0 : 0 ≤ s.prev_m) (hpc : s.current_m = s.prev_m + 1) (hcL : s.current_m < (L : ℤ))
    (hA : L ≤ A.length) (hB : L ≤ B.length) (hF : L ≤ F.length) :
    rebin_body A B F c s = Except.ok
      { prev_m := s.current_m,
        current_m := s.current_m + pyRound (s.real_index * c),
        real_index := s.real_index * c,
        rebinned_freq := s.rebinned_freq ++ [F.getD s.prev_m.toNat 0],
        rebinned_rms_power := s.rebinned_rms_power ++ [A.getD s.prev_m.toNat 0],
        err_rebinned_power_sq := s.err_rebinned_power_sq ++ [(B.getD s.prev_m.toNat 0) ^ 2],
        groups := s.groups ++ [(s.prev_m, s.current_m)] } := by
  have hAcast : (L : ℤ) ≤ (A.length : ℤ) := by exact_mod_cast hA
  have hBcast : (L : ℤ) ≤ (B.length : ℤ) := by exact_mod_cast hB
  have hFcast : (L : ℤ) ≤ (F.length : ℤ) := by exact_mod_cast hF
  have habs : |s.current_m - s.prev_m| = 1 := by
    rw [hpc]
    simp
  have hrng : pyRange s.prev_m s.current_m = [s.prev_m] := by
    rw [pyRange_cons _ _ (by omega), pyRange_empty _ _ (by omega)]
  have hga := pyGet_ok A s.prev_m hp0 (by omega)
  have hgb := pyGet_ok B s.prev_m hp0 (by omega)
  have hgf := pyGet_ok F s.prev_m hp0 (by omega)
  have hgc := pyGet_ok F s.current_m (by omega) (by omega)
  have hsum : sum_bin A B [s.prev_m] 0 0 =
      Except.ok (0 + A.getD s.prev_m.toNat 0, 0 + (B.getD s.prev_m.toNat 0) ^ 2) := by
    rw [sum_bin, hga, hgb]
    rfl
  unfold rebin_body
  rw [hrng]
  simp only [hsum, hgc, hgf, hga, habs]
  norm_num

/-!  Behaviour of the full rebinning while loop. -/

/-- For a rebin constant of at least one the loop always halts within
`length_of_list` iterations: each successful iteration advances `current_m`
by at least one (the rounded `real_index` stays at least one), and a failing
iteration stops the loop with its error.  Fuel `L - current_m` is enough,
so the fuelled run never returns `none`. -/
theorem rebin_loop_total (A B F : List ℚ) (c : ℚ) (L : ℕ) (hc : 1 ≤ c) :
    ∀ (fuel : ℕ) (s : RebinState), 1 ≤ s.real_index → (L : ℤ) ≤ s.current_m + fuel →
      ∃ r, rebin_loop A B F c L fuel s = some r := by
  intro fuel
  induction fuel with
  | zero =>
    intro s hr hf
    rw [rebin_loop, if_neg (by push_cast at hf ⊢; omega)]
    exact ⟨_, rfl⟩
  | succ n ih =>
    intro s hr hf
    rw [rebin_loop]
    by_cases hcond : s.current_m < (L : ℤ)
    · rw [if_pos hcond]
      cases hb : rebin_body A B F c s with
      | error e => exact ⟨_, rfl⟩
      | ok s1 =>
        obtain ⟨hq, hcm, hri, _, _, _, _⟩ := rebin_body_fields A B F c s s1 hb
        have hinc : 1 ≤ pyRound (s.real_index * c) :=
          pyRound_ge_one _ (by nlinarith)
        have hr1 : 1 ≤ s1.real_index := by rw [hri]; nlinarith
        exact ih s1 hr1 (by push_cast at hf ⊢; omega)
    · rw [if_neg hcond]
      exact ⟨_, rfl⟩

/-- For a rebin constant of at least one, every state the loop finishes in
has appended at most `max 0 (L - current_m)` entries to each output list:
each iteration appends one entry and strictly advances `current_m`, and
iterations only run while `current_m < L`. -/
theorem rebin_loop_len (A B F : List ℚ) (c : ℚ) (L : ℕ) (hc : 1 ≤ c) :
    ∀ (fuel : ℕ) (s s1 : RebinState), 1 ≤ s.real_index →
      rebin_loop A B F c L fuel s = some (Except.ok s1) →
      (s1.rebinned_freq.length : ℤ) ≤ s.rebinned_freq.length + max 0 ((L : ℤ) - s.current_m) ∧
      (s1.rebinned_rms_power.length : ℤ) ≤
        s.rebinned_rms_power.length + max 0 ((L : ℤ) - s.current_m) ∧
      (s1.err_rebinned_power_sq.length : ℤ) ≤
        s.err_rebinned_power_sq.length + max 0 ((L : ℤ) - s.current_m) ∧
      (s1.groups.length : ℤ) ≤ s.groups.length + max 0 ((L : ℤ) - s.current_m) := by
  intro fuel
  induction fuel with
  | zero =>
    intro s s1 hr h
    rw [rebin_loop] at h
    split at h
    · exact absurd h (by simp)
    · have hs : s = s1 := by
        have h2 := Option.some.inj h
        exact Except.ok.inj h2
      subst hs
      have hmax := le_max_left 0 ((L : ℤ) - s.current_m)
      exact ⟨by omega, by omega, by omega, by omega⟩
  | succ n ih =>
    intro s s1 hr h
    rw [rebin_loop] at h
    split at h
    · rename_i hcond
      cases hb : rebin_body A B F c s with
      | error e =>
        rw [hb] at h
        simp at h
      | ok s2 =>
        rw [hb] at h
        simp only at h
        obtain ⟨hq, hcm, hri, ⟨u1, hf1⟩, ⟨u2, hf2⟩, ⟨u3, hf3⟩, hg⟩ :=
          rebin_body_fields A B F c s s2 hb
        have hinc : 1 ≤ pyRound (s.real_index * c) :=
          pyRound_ge_one _ (by nlinarith)
        have hr2 : 1 ≤ s2.real_index := by rw [hri]; nlinarith
        obtain ⟨e1, e2, e3, e4⟩ := ih s2 s1 hr2 h
        rw [hf1] at e1
        rw [hf2] at e2
        rw [hf3] at e3
        rw [hg] at e4
        simp only [List.length_append, List.length_singleton] at e1 e2 e3 e4
        have hmax1 := le_max_left 0 ((L : ℤ) - s2.current_m)
        have hmax2 := le_max_left 0 ((L : ℤ) - s.current_m)
        have hmono : max 0 ((L : ℤ) - s2.current_m) + 1 ≤ max 0 ((L : ℤ) - s.current_m) := by
          rw [hcm]
          rcases le_or_lt ((L : ℤ) - (s.current_m + pyRound (s.real_index * c))) 0 with hle | hgt
          · rw [max_eq_left hle]
            omega
          · rw [max_eq_right (by omega), max_eq_right (by omega)]
            omega
        push_cast at e1 e2 e3 e4 ⊢
        exact ⟨by omega, by omega, by omega, by omega⟩
    · have hs : s = s1 := by
        have h2 := Option.some.inj h
        exact Except.ok.inj h2
      subst hs
      have hmax := le_max_left 0 ((L : ℤ) - s.current_m)
      exact ⟨by omega, by omega, by omega, by omega⟩

/-!  The group chain invariant. -/

/-- Appending a fresh nonempty group that starts where the chain ended
extends the chain. -/
theorem chainFrom_append (a b y : ℤ) (gs : List (ℤ × ℤ))
    (h : chainFrom a gs b = true) (hy : b < y) :
    chainFrom a (gs ++ [(b, y)]) y = true := by
  induction gs generalizing a with
  | nil =>
    simp only [chainFrom, beq_iff_eq] at h
    subst h
    simp [chainFrom, hy]
  | cons g gs ih =>
    obtain ⟨x, z⟩ := g
    simp only [chainFrom, Bool.and_eq_true, beq_iff_eq, decide_eq_true_eq] at h
    obtain ⟨⟨hxa, hxz⟩, hch⟩ := h
    simp only [List.cons_append, chainFrom, Bool.and_eq_true, beq_iff_eq, decide_eq_true_eq]
    exact ⟨⟨hxa, hxz⟩, ih z hch⟩

/-- For a rebin constant of at least one, the loop preserves the invariant
that the emitted groups form an adjacent, nonempty, nonoverlapping chain
from the starting index to the current `prev_m`. -/
theorem rebin_loop_chain (A B F : List ℚ) (c : ℚ) (L : ℕ) (hc : 1 ≤ c) :
    ∀ (fuel : ℕ) (s s1 : RebinState) (a : ℤ), 1 ≤ s.real_index →
      s.prev_m < s.current_m →
      chainFrom a s.groups s.prev_m = true →
      rebin_loop A B F c L fuel s = some (Except.ok s1) →
      chainFrom a s1.groups s1.prev_m = true := by
  intro fuel
  induction fuel with
  | zero =>
    intro s s1 a hr hpc hch h
    rw [rebin_loop] at h
    split at h
    · exact absurd h (by simp)
    · obtain rfl : s = s1 := Except.ok.inj (Option.some.inj h)
      exact hch
  | succ n ih =>
    intro s s1 a hr hpc hch h
    rw [rebin_loop] at h
    split at h
    · cases hb : rebin_body A B F c s with
      | error e =>
        rw [hb] at h
        simp at h
      | ok s2 =>
        rw [hb] at h
        simp only at h
        obtain ⟨hq, hcm, hri, _, _, _, hg⟩ := rebin_body_fields A B F c s s2 hb
        have hinc : 1 ≤ pyRound (s.real_index * c) := pyRound_ge_one _ (by nlinarith)
        refine ih s2 s1 a (by rw [hri]; nlinarith) (by omega) ?_ h
        rw [hg, hq]
        exact chainFrom_append a s.prev_m s.current_m s.groups hch hpc
    · obtain rfl : s = s1 := Except.ok.inj (Option.some.inj h)
      exact hch

/-- For a rebin constant of at least one and input lists of length at least
`L`, the loop runs to completion without any Python error, given enough
fuel (`L - current_m` iterations always suffice). -/
theorem rebin_loop_ok (A B F : List ℚ) (c : ℚ) (L : ℕ) (hc : 1 ≤ c)
    (hA : L ≤ A.length) (hB : L ≤ B.length) (hF : L ≤ F.length) :
    ∀ (fuel : ℕ) (s : RebinState), 1 ≤ s.real_index → 0 ≤ s.prev_m →
      s.prev_m < s.current_m → (L : ℤ) ≤ s.current_m + fuel →
      ∃ s1, rebin_loop A B F c L fuel s = some (Except.ok s1) := by
  intro fuel
  induction fuel with
  | zero =>
    intro s hr h0 hpc hf
    rw [rebin_loop, if_neg (by push_cast at hf ⊢; omega)]
    exact ⟨s, rfl⟩
  | succ n ih =>
    intro s hr h0 hpc hf
    rw [rebin_loop]
    by_cases hcond : s.current_m < (L : ℤ)
    · rw [if_pos hcond]
      obtain ⟨s2, hb⟩ := rebin_body_ok A B F c L s h0 hpc hcond hA hB hF
      rw [hb]
      obtain ⟨hq, hcm, hri, _, _, _, _⟩ := rebin_body_fields A B F c s s2 hb
      have hinc : 1 ≤ pyRound (s.real_index * c) := pyRound_ge_one _ (by nlinarith)
      exact ih s2 (by rw [hri]; nlinarith) (by omega) (by omega)
        (by push_cast at hf ⊢; omega)
    · rw [if_neg hcond]
      exact ⟨s, rfl⟩

/-- When every group of a completed run is a unit group (`bin_range = 1`),
the run simply copies the original columns: the outputs appended between a
state and the final state are exactly the entries of the input lists at the
original indices `prev_m, prev_m + 1, ...` up to the final `prev_m`, and the
groups are the corresponding unit intervals. -/
theorem rebin_loop_unit (A B F : List ℚ) (c : ℚ) (L : ℕ) (hc : 1 ≤ c)
    (hA : L ≤ A.length) (hB : L ≤ B.length) (hF : L ≤ F.length) :
    ∀ (fuel : ℕ) (s s1 : RebinState), 1 ≤ s.real_index → 0 ≤ s.prev_m →
      s.prev_m < s.current_m →
      rebin_loop A B F c L fuel s = some (Except.ok s1) →
      (∀ g ∈ s1.groups, g.2 = g.1 + 1) →
      s.prev_m ≤ s1.prev_m ∧
      s1.groups = s.groups ++ (pyRange s.prev_m s1.prev_m).map (fun i => (i, i + 1)) ∧
      s1.rebinned_freq = s.rebinned_freq ++
        (pyRange s.prev_m s1.prev_m).map (fun i => F.getD i.toNat 0) ∧
      s1.rebinned_rms_power = s.rebinned_rms_power ++
        (pyRange s.prev_m s1.prev_m).map (fun i => A.getD i.toNat 0) ∧
      s1.err_rebinned_power_sq = s.err_rebinned_power_sq ++
        (pyRange s.prev_m s1.prev_m).map (fun i => (B.getD i.toNat 0) ^ 2) := by
  intro fuel
  induction fuel with
  | zero =>
    intro s s1 hr h0 hpc h hUnit
    rw [rebin_loop] at h
    split at h
    · exact absurd h (by simp)
    · obtain rfl : s = s1 := Except.ok.inj (Option.some.inj h)
      rw [pyRange_empty _ _ le_rfl]
      simp
  | succ n ih =>
    intro s s1 hr h0 hpc h hUnit
    rw [rebin_loop] at h
    split at h
    · rename_i hcond
      cases hb : rebin_body A B F c s with
      | error e =>
        rw [hb] at h
        simp at h
      | ok s2 =>
        rw [hb] at h
        simp only at h
        obtain ⟨hq, hcm, hri, _, _, _, hg⟩ := rebin_body_fields A B F c s s2 hb
        have hinc : 1 ≤ pyRound (s.real_index * c) := pyRound_ge_one _ (by nlinarith)
        obtain ⟨hmono, hgroups, hfreq, hpow, herr⟩ :=
          ih s2 s1 (by rw [hri]; nlinarith) (by omega) (by omega) h hUnit
        have hmem : (s.prev_m, s.current_m) ∈ s1.groups := by
          rw [hgroups, hg]
          simp
        have hcur1 : s.current_m = s.prev_m + 1 := hUnit _ hmem
        have hbu := rebin_body_unit A B F c L s h0 hcur1 hcond hA hB hF
        have hs2 := Except.ok.inj (hb.symm.trans hbu)
        have hprev1 : s.prev_m < s1.prev_m := by
          rw [hs2] at hmono
          simp at hmono
          omega
        have hsplit : pyRange s.prev_m s1.prev_m =
            s.prev_m :: pyRange s.current_m s1.prev_m := by
          rw [pyRange_cons _ _ hprev1, hcur1]
        have hq2 : s2.prev_m = s.current_m := hq
        constructor
        · omega
        refine ⟨?_, ?_, ?_, ?_⟩
        · rw [hgroups, hs2, hsplit]
          simp [hcur1]
        · rw [hfreq, hs2, hsplit]
          simp
        · rw [hpow, hs2, hsplit]
          simp
        · rw [herr, hs2, hsplit]
          simp
    · obtain rfl : s = s1 := Except.ok.inj (Option.some.inj h)
      rw [pyRange_empty _ _ le_rfl]
      simp

/-!  Characterization of the segment loop. -/

/-- Invariant form of the segment loop: starting from window `(i, i + nb)`
with enough fuel, the processed windows are exactly the consecutive
`nb`-sized windows whose end stays strictly below `len`; their number is
`(len - i - 1) / nb`. -/
theorem seg_loop_eq (len nb : ℕ) (hnb : 1 ≤ nb) :
    ∀ (fuel i j : ℕ), j = i + nb → len ≤ j + fuel →
      seg_loop fuel len nb i j =
        (List.range ((len - i - 1) / nb)).map
          (fun k => (i + k * nb, i + k * nb + nb)) := by
  intro fuel
  induction fuel with
  | zero =>
    intro i j hj hf
    rw [seg_loop, Nat.div_eq_of_lt (by omega), List.range_zero, List.map_nil]
  | succ n ih =>
    intro i j hj hf
    rw [seg_loop]
    by_cases hcond : j < len
    · rw [if_pos hcond]
      rw [ih j (j + nb) rfl (by omega)]
      have hm : (len - i - 1) / nb = (len - j - 1) / nb + 1 := by
        rw [Nat.div_eq (len - i - 1) nb, if_pos (by omega)]
        congr 1
        congr 1
        omega
      rw [hm, List.range_succ_eq_map, List.map_cons, List.map_map]
      congr 1
      · simp
        omega
      · apply List.map_congr_left
        intro k _
        simp only [Function.comp_apply, Prod.mk.injEq, Nat.succ_eq_add_one, add_mul, one_mul]
        omega
    · rw [if_neg hcond]
      rw [Nat.div_eq_of_lt (by omega), List.range_zero, List.map_nil]

/-- The windows processed by the segmenter of `main`: consecutive
`nb`-sized windows `[k*nb, (k+1)*nb)`, one for every `k` with
`(k+1)*nb < len` up to the strict loop bound, i.e. `(len-1)/nb` of them. -/
theorem segments_eq (len nb : ℕ) (hnb : 1 ≤ nb) :
    segments len nb =
      (List.range ((len - 1) / nb)).map (fun k => (k * nb, k * nb + nb)) := by
  unfold segments
  rw [seg_loop_eq len nb hnb (len + 1) 0 nb (by omega) (by omega)]
  have h1 : len - 0 - 1 = len - 1 := by omega
  rw [h1]
  apply List.map_congr_left
  intro k _
  simp

/-- The number of processed segments is `(len - 1) / nb`: one less than
`len / nb` whenever `len` is an exact multiple of `nb`. -/
theorem num_segments_eq (len nb : ℕ) (hnb : 1 ≤ nb) :
    num_segments len nb = (len - 1) / nb := by
  unfold num_segments
  rw [segments_eq len nb hnb, List.length_map, List.length_range]

/-!  Correctness of `power_of_two` on its effective domain. -/

/-- Starting the doubling loop at a power of two between `2^j` and the
target `2^k` (with `k ≤ 31`) lands exactly on `2^k`: doubling from below
never overshoots a power of two and the `2^31` cap never fires first. -/
theorem pot_loop_pow : ∀ (fuel j k : ℕ), j ≤ k → k ≤ 31 → k - j ≤ fuel →
    pot_loop fuel ((2 : ℤ) ^ j) ((2 : ℤ) ^ k) = (2 : ℤ) ^ k := by
  intro fuel
  induction fuel with
  | zero =>
    intro j k hjk hk31 hf
    have : j = k := by omega
    subst this
    rfl
  | succ n ih =>
    intro j k hjk hk31 hf
    rcases eq_or_lt_of_le hjk with rfl | hlt
    · rw [pot_loop, if_neg (by simp)]
    · rw [pot_loop, if_pos ?cond]
      case cond =>
        constructor
        · exact pow_lt_pow_right (by norm_num) hlt
        · calc (2 : ℤ) ^ j < 2 ^ 31 := pow_lt_pow_right (by norm_num) (by omega)
          _ = 2147483648 := by norm_num
      rw [show (2 : ℤ) * 2 ^ j = 2 ^ (j + 1) by ring]
      exact ih (j + 1) k (by omega) hk31 (by omega)

/-- The doubling loop started at a power of two always returns a power of
two at least as large. -/
theorem pot_loop_pow_exists : ∀ (fuel j : ℕ) (n : ℤ),
    ∃ j2 : ℕ, pot_loop fuel ((2 : ℤ) ^ j) n = (2 : ℤ) ^ j2 ∧ j ≤ j2 := by
  intro fuel
  induction fuel with
  | zero => intro j n; exact ⟨j, rfl, le_rfl⟩
  | succ m ih =>
    intro j n
    rw [pot_loop]
    by_cases hcond : (2 : ℤ) ^ j < n ∧ (2 : ℤ) ^ j < 2147483648
    · rw [if_pos hcond, show (2 : ℤ) * 2 ^ j = 2 ^ (j + 1) by ring]
      obtain ⟨j2, h1, h2⟩ := ih (j + 1) n
      exact ⟨j2, h1, by omega⟩
    · rw [if_neg hcond]
      exact ⟨j, rfl, le_rfl⟩

/-- On inputs up to `2^31` (which covers every value the capped doubling
search can reach), `power_of_two` decides exactly the powers of two. -/
theorem power_of_two_iff (n : ℤ) (hn : n ≤ 2 ^ 31) :
    power_of_two n = true ↔ ∃ k : ℕ, n = 2 ^ k := by
  unfold power_of_two
  by_cases h1 : n = 1
  · subst h1
    rw [if_pos rfl]
    simp only [true_iff]
    exact ⟨0, by norm_num⟩
  · rw [if_neg h1]
    simp only [beq_iff_eq]
    constructor
    · intro h
      obtain ⟨j2, hj2, _⟩ := pot_loop_pow_exists 40 1 n
      rw [show (2 : ℤ) ^ 1 = 2 by norm_num] at hj2
      exact ⟨j2, by rw [h, hj2]⟩
    · rintro ⟨k, rfl⟩
      rcases Nat.eq_zero_or_pos k with rfl | hk
      · exact absurd (by norm_num) h1
      · have hk31 : k ≤ 31 := by
          by_contra hgt
          push_neg at hgt
          have : (2 : ℤ) ^ 32 ≤ 2 ^ k := pow_le_pow_right (by norm_num) (by omega)
          have h32 : (2 : ℤ) ^ 31 < 2 ^ 32 := pow_lt_pow_right (by norm_num) (by omega)
          omega
        have := pot_loop_pow 40 1 k hk hk31 (by omega)
        rw [show (2 : ℤ) ^ 1 = 2 by norm_num] at this
        rw [this]

/-- The validation block of `main` passes exactly when the segment length in
seconds is positive and itself a power of two and the rebin constant is at
least one; it depends on nothing else (in particular not on `dt` or
`n_bins`). -/
theorem main_checks_iff (ns : ℤ) (rc : ℚ) (h : ns ≤ 2 ^ 31) :
    main_checks ns rc = true ↔ 0 < ns ∧ 1 ≤ rc ∧ ∃ k : ℕ, ns = 2 ^ k := by
  unfold main_checks
  rw [Bool.and_eq_true, Bool.and_eq_true, power_of_two_iff ns h]
  simp [and_assoc]

/-!  The maximum of a list and its first index. -/

/-- A maximum fold is at least its seed. -/
theorem foldl_max_init_le (xs : List ℚ) : ∀ (a : ℚ), a ≤ xs.foldl max a := by
  induction xs with
  | nil => intro a; simp
  | cons x xs ih =>
    intro a
    rw [List.foldl_cons]
    exact le_trans (le_max_left a x) (ih (max a x))

/-- A maximum fold dominates every list element. -/
theorem le_foldl_max (xs : List ℚ) : ∀ (a y : ℚ), y ∈ xs → y ≤ xs.foldl max a := by
  induction xs with
  | nil => intro a y hy; simp at hy
  | cons x xs ih =>
    intro a y hy
    rw [List.foldl_cons]
    rcases List.mem_cons.mp hy with rfl | hmem
    · exact le_trans (le_max_right a y) (foldl_max_init_le xs (max a y))
    · exact ih (max a x) y hmem

/-- A maximum fold is the seed or a list element. -/
theorem foldl_max_mem (xs : List ℚ) : ∀ (a : ℚ), xs.foldl max a = a ∨ xs.foldl max a ∈ xs := by
  induction xs with
  | nil => intro a; left; rfl
  | cons x xs ih =>
    intro a
    rw [List.foldl_cons]
    rcases ih (max a x) with h | h
    · rcases max_choice a x with hm | hm
      · left; rw [h, hm]
      · right; rw [h, hm]; exact List.mem_cons_self x xs
    · right; exact List.mem_cons_of_mem x h

/-- The Python `max` of a nonempty list is one of its elements. -/
theorem listMax_mem (xs : List ℚ) (h : xs ≠ []) : listMax xs ∈ xs := by
  cases xs with
  | nil => exact absurd rfl h
  | cons x xs =>
    rw [listMax]
    rcases foldl_max_mem xs x with h2 | h2
    · rw [h2]; exact List.mem_cons_self x xs
    · exact List.mem_cons_of_mem x h2

/-- The Python `max` of a list dominates every element. -/
theorem le_listMax (xs : List ℚ) (y : ℚ) (hy : y ∈ xs) : y ≤ listMax xs := by
  cases xs with
  | nil => simp at hy
  | cons x xs =>
    rw [listMax]
    rcases List.mem_cons.mp hy with rfl | hmem
    · exact foldl_max_init_le xs y
    · exact le_foldl_max xs x y hmem

/-- The Python `max` equals any element that dominates the whole list. -/
theorem listMax_eq (xs : List ℚ) (t : ℚ) (ht : t ∈ xs) (hub : ∀ y ∈ xs, y ≤ t) :
    listMax xs = t :=
  le_antisymm (hub _ (listMax_mem xs (by rintro rfl; simp at ht))) (le_listMax xs t ht)

/-- Python `list.index` of an element absent from the left part of an
append finds the head of the right part. -/
theorem indexOf_append_cons (l1 l2 : List ℚ) (a : ℚ) (h : a ∉ l1) :
    (l1 ++ a :: l2).indexOf a = l1.length := by
  induction l1 with
  | nil => simp
  | cons x l1 ih =>
    have hxa : x ≠ a := fun hh => h (hh ▸ List.mem_cons_self x l1)
    rw [List.cons_append, List.indexOf_cons_ne _ hxa,
      ih (fun hh => h (List.mem_cons_of_mem x hh))]
    simp [Nat.succ_eq_add_one]

/-!  Structure of the frequency array for an even number of bins. -/

/-- For `n = 2*m` bins the scaled frequency array is the `m` nonnegative
bins `k*s/n` for `k < m` followed by the `m` negative bins `(k-m)*s/n` —
note the Nyquist bin sits at index `m` with the negative value `-s/2`. -/
theorem freq_list_split (m : ℕ) (s : ℤ) (hm : 1 ≤ m) :
    freq_list (2 * m) s =
      (List.range m).map (fun (k : ℕ) => (k : ℚ) / ((2 * m : ℕ) : ℚ) * (s : ℚ)) ++
      (List.range m).map
        (fun (k : ℕ) => (((k : ℤ) - (m : ℤ)) : ℚ) / ((2 * m : ℕ) : ℚ) * (s : ℚ)) := by
  unfold freq_list fftfreq
  have h1 : (2 * m - 1) / 2 + 1 = m := by omega
  have h3 : 2 * m / 2 = m := by omega
  rw [h1]
  simp only [h3, List.map_append, List.map_map]
  have h2 : 2 * m - m = m := by omega
  rw [h2]
  congr 1 <;>
    · apply List.map_congr_left
      intro k _
      simp [Function.comp]

/-- Helper for the truncation index: in a list made of `m` mapped values
followed by a tail, if the first `m - 1` mapped values differ from the
mapped value at `m - 1`, then `list.index` of that value is `m - 1`. -/
theorem indexOf_map_range_at (f : ℕ → ℚ) (m : ℕ) (hm : 1 ≤ m) (B : List ℚ)
    (hinj : ∀ k, k < m - 1 → f k ≠ f (m - 1)) :
    ((List.range m).map f ++ B).indexOf (f (m - 1)) = m - 1 := by
  have hrange : List.range m = List.range (m - 1) ++ [m - 1] := by
    conv_lhs => rw [show m = (m - 1) + 1 by omega]
    exact List.range_succ (m - 1)
  rw [hrange, List.map_append, List.append_assoc]
  have hmid : (List.map f [m - 1]) ++ B = f (m - 1) :: B := by simp
  rw [hmid]
  rw [indexOf_append_cons _ _ _ ?notmem]
  · rw [List.length_map, List.length_range]
  case notmem =>
    intro hmem
    simp only [List.mem_map, List.mem_range] at hmem
    obtain ⟨k, hk, heq⟩ := hmem
    exact hinj k hk heq

/-- With at least one bin and a positive integer scale, the maximum of the
frequency array is the value at index `m - 1` (the largest positive
frequency, strictly below Nyquist), and `list.index(max(...))` finds it
there. -/
theorem freq_max_index (m : ℕ) (s : ℤ) (hm : 1 ≤ m) (hs : 1 ≤ s) :
    listMax (freq_list (2 * m) s) =
      ((m - 1 : ℕ) : ℚ) / ((2 * m : ℕ) : ℚ) * (s : ℚ) ∧
    max_index (freq_list (2 * m) s) = m - 1 := by
  have hs0 : (0 : ℚ) < (s : ℚ) := by exact_mod_cast hs
  have hn0 : (0 : ℚ) < ((2 * m : ℕ) : ℚ) := by
    have h0 : 0 < 2 * m := by omega
    exact_mod_cast h0
  have hsplit := freq_list_split m s hm
  have htA : ((m - 1 : ℕ) : ℚ) / ((2 * m : ℕ) : ℚ) * (s : ℚ) ∈
      (List.range m).map (fun (k : ℕ) => (k : ℚ) / ((2 * m : ℕ) : ℚ) * (s : ℚ)) := by
    simp only [List.mem_map, List.mem_range]
    exact ⟨m - 1, by omega, rfl⟩
  have htmem : ((m - 1 : ℕ) : ℚ) / ((2 * m : ℕ) : ℚ) * (s : ℚ) ∈ freq_list (2 * m) s := by
    rw [hsplit]
    exact List.mem_append.mpr (Or.inl htA)
  have hub : ∀ y ∈ freq_list (2 * m) s,
      y ≤ ((m - 1 : ℕ) : ℚ) / ((2 * m : ℕ) : ℚ) * (s : ℚ) := by
    rw [hsplit]
    intro y hy
    rcases List.mem_append.mp hy with hyA | hyB
    · simp only [List.mem_map, List.mem_range] at hyA
      obtain ⟨k, hk, rfl⟩ := hyA
      have hk2 : (k : ℚ) ≤ ((m - 1 : ℕ) : ℚ) := by
        exact_mod_cast (show k ≤ m - 1 by omega)
      exact mul_le_mul_of_nonneg_right ((div_le_div_right hn0).mpr hk2) (le_of_lt hs0)
    · simp only [List.mem_map, List.mem_range] at hyB
      obtain ⟨k, hk, rfl⟩ := hyB
      have hk2 : (((k : ℤ) - (m : ℤ)) : ℚ) ≤ 0 := by
        have hkm : (k : ℤ) - (m : ℤ) ≤ 0 := by omega
        exact_mod_cast hkm
      have hy0 : (((k : ℤ) - (m : ℤ)) : ℚ) / ((2 * m : ℕ) : ℚ) * (s : ℚ) ≤ 0 :=
        mul_nonpos_of_nonpos_of_nonneg
          (div_nonpos_of_nonpos_of_nonneg hk2 (le_of_lt hn0)) (le_of_lt hs0)
      have ht0 : (0 : ℚ) ≤ ((m - 1 : ℕ) : ℚ) / ((2 * m : ℕ) : ℚ) * (s : ℚ) := by positivity
      linarith
  have hmax : listMax (freq_list (2 * m) s) =
      ((m - 1 : ℕ) : ℚ) / ((2 * m : ℕ) : ℚ) * (s : ℚ) := listMax_eq _ _ htmem hub
  refine ⟨hmax, ?_⟩
  unfold max_index
  rw [hmax, hsplit]
  exact indexOf_map_range_at (fun (k : ℕ) => (k : ℚ) / ((2 * m : ℕ) : ℚ) * (s : ℚ)) m hm _
    (fun k hk heq => by
      have h1 := mul_right_cancel₀ (ne_of_gt hs0) heq
      have h2 : (k : ℚ) = ((m - 1 : ℕ) : ℚ) := by
        have h3 : (k : ℚ) / ((2 * m : ℕ) : ℚ) * ((2 * m : ℕ) : ℚ) =
            ((m - 1 : ℕ) : ℚ) / ((2 * m : ℕ) : ℚ) * ((2 * m : ℕ) : ℚ) := by rw [h1]
        rwa [div_mul_cancel₀ _ (ne_of_gt hn0), div_mul_cancel₀ _ (ne_of_gt hn0)] at h3
      have h4 : k = m - 1 := by exact_mod_cast h2
      omega)

/-- The truncation `freq[0:max_index+1]` of `main` keeps exactly the `m`
bins of nonnegative frequency, `0, s/n, ..., (m-1)*s/n` — that is `n/2`
bins, not `n/2 + 1`: the Nyquist bin (which `fftfreq` represents with the
negative value `-s/2`) is dropped. -/
theorem freq_trunc_eq (m : ℕ) (s : ℤ) (hm : 1 ≤ m) (hs : 1 ≤ s) :
    freq_trunc (2 * m) s =
      (List.range m).map (fun (k : ℕ) => (k : ℚ) / ((2 * m : ℕ) : ℚ) * (s : ℚ)) ∧
    (freq_trunc (2 * m) s).length = m := by
  obtain ⟨hmax, hidx⟩ := freq_max_index m s hm hs
  have hA : freq_trunc (2 * m) s =
      (List.range m).map (fun (k : ℕ) => (k : ℚ) / ((2 * m : ℕ) : ℚ) * (s : ℚ)) := by
    unfold freq_trunc
    rw [hidx, freq_list_split m s hm]
    rw [show m - 1 + 1 =
        ((List.range m).map
          (fun (k : ℕ) => (k : ℚ) / ((2 * m : ℕ) : ℚ) * (s : ℚ))).length by
      rw [List.length_map, List.length_range]
      omega]
    exact List.take_left _ _
  refine ⟨hA, ?_⟩
  rw [hA, List.length_map, List.length_range]

/-- Sum of a list after subtracting a constant from every entry. -/
theorem sum_map_sub_const (l : List ℚ) (cst : ℚ) :
    (l.map (fun x => x - cst)).sum = l.sum - (l.length : ℚ) * cst := by
  induction l with
  | nil => simp
  | cons x l ih =>
    simp only [List.map_cons, List.sum_cons, List.length_cons, ih]
    push_cast
    ring

/-- Reading a column along `pyRange_loop` by truncated index equals reading
it along `List.range` shifted by the (nonnegative) start. -/
theorem pyRange_loop_getD (xs : List ℚ) : ∀ (n : ℕ) (a : ℤ), 0 ≤ a →
    (pyRange_loop n a).map (fun i => xs.getD i.toNat 0) =
      (List.range n).map (fun k => xs.getD (a.toNat + k) 0) := by
  intro n
  induction n with
  | zero => intro a _; rfl
  | succ n ih =>
    intro a ha
    rw [pyRange_loop, List.map_cons, List.range_succ_eq_map, List.map_cons,
      List.map_map, ih (a + 1) (by omega)]
    congr 1
    apply List.map_congr_left
    intro k _
    simp only [Function.comp_apply]
    congr 1
    omega

/-- Squared variant of `pyRange_loop_getD`. -/
theorem pyRange_loop_getD_sq (xs : List ℚ) : ∀ (n : ℕ) (a : ℤ), 0 ≤ a →
    (pyRange_loop n a).map (fun i => (xs.getD i.toNat 0) ^ 2) =
      (List.range n).map (fun k => (xs.getD (a.toNat + k) 0) ^ 2) := by
  intro n
  induction n with
  | zero => intro a _; rfl
  | succ n ih =>
    intro a ha
    rw [pyRange_loop, List.map_cons, List.range_succ_eq_map, List.map_cons,
      List.map_map, ih (a + 1) (by omega)]
    congr 1
    apply List.map_congr_left
    intro k _
    simp only [Function.comp_apply]
    congr 2
    omega

/-- Reading a column along `pyRange 0 p` is reading its prefix of length
`p.toNat`. -/
theorem pyRange_zero_getD (xs : List ℚ) (p : ℤ) (hp : 0 ≤ p) :
    (pyRange 0 p).map (fun i => xs.getD i.toNat 0) = unbinned_prefix xs p.toNat := by
  unfold pyRange unbinned_prefix
  rw [sub_zero, pyRange_loop_getD xs p.toNat 0 le_rfl]
  apply List.map_congr_left
  intro k _
  congr 1
  omega

/-- Squared variant of `pyRange_zero_getD`. -/
theorem pyRange_zero_getD_sq (xs : List ℚ) (p : ℤ) (hp : 0 ≤ p) :
    (pyRange 0 p).map (fun i => (xs.getD i.toNat 0) ^ 2) =
      (List.range p.toNat).map (fun k => (xs.getD k 0) ^ 2) := by
  unfold pyRange
  rw [sub_zero, pyRange_loop_getD_sq xs p.toNat 0 le_rfl]
  apply List.map_congr_left
  intro k _
  congr 2
  omega

/-!  Claims C1 to C10. -/

/-- C1 (corrected).  For even `n_bins = 2*m` the retained arrays have length
`n_bins/2 = m`, not `n_bins/2 + 1`: the truncated frequency array is exactly
the `m` bins `k * s / n_bins` for `k < m` — ascending, starting at `0`,
pairwise strictly increasing, and the Nyquist frequency `s/2` is NOT
retained (`np.fft.fftfreq` stores it as the negative value `-s/2`, so
`freq.index(max(freq))` stops one bin short of it); `power_avg` is truncated
to the same length `n_bins/2`. -/
theorem claim_C1 (m : ℕ) (s : ℤ) (P : List ℚ) (hm : 1 ≤ m) (hs : 1 ≤ s)
    (hP : m ≤ P.length) :
    freq_trunc (2 * m) s =
      (List.range m).map (fun (k : ℕ) => (k : ℚ) / ((2 * m : ℕ) : ℚ) * (s : ℚ)) ∧
    (freq_trunc (2 * m) s).length = 2 * m / 2 ∧
    (freq_trunc (2 * m) s).head? = some 0 ∧
    List.Pairwise (fun x y => x < y) (freq_trunc (2 * m) s) ∧
    (s : ℚ) / 2 ∉ freq_trunc (2 * m) s ∧
    (P.take (max_index (freq_list (2 * m) s) + 1)).length = 2 * m / 2 := by
  obtain ⟨hexp, hlen⟩ := freq_trunc_eq m s hm hs
  obtain ⟨hmax, hidx⟩ := freq_max_index m s hm hs
  have hs0 : (0 : ℚ) < (s : ℚ) := by exact_mod_cast hs
  have hn0 : (0 : ℚ) < ((2 * m : ℕ) : ℚ) := by
    have h0 : 0 < 2 * m := by omega
    exact_mod_cast h0
  have hm2 : 2 * m / 2 = m := by omega
  refine ⟨hexp, by rw [hlen, hm2], ?_, ?_, ?_, ?_⟩
  · rw [hexp]
    obtain ⟨m0, rfl⟩ : ∃ m0, m = m0 + 1 := ⟨m - 1, by omega⟩
    rw [List.range_succ_eq_map]
    simp
  · rw [hexp]
    refine List.Pairwise.map _ ?_ (List.pairwise_lt_range m)
    intro a b hab
    have hcast : (a : ℚ) < (b : ℚ) := by exact_mod_cast hab
    exact mul_lt_mul_of_pos_right ((div_lt_div_right hn0).mpr hcast) hs0
  · rw [hexp]
    intro hmem
    simp only [List.mem_map, List.mem_range] at hmem
    obtain ⟨k, hk, heq⟩ := hmem
    have hsne : (s : ℚ) ≠ 0 := ne_of_gt hs0
    rw [div_mul_eq_mul_div, div_eq_div_iff (ne_of_gt hn0) (by norm_num : (2 : ℚ) ≠ 0)] at heq
    have h1 : (k : ℚ) * 2 = ((2 * m : ℕ) : ℚ) :=
      mul_right_cancel₀ hsne (by linear_combination heq)
    have h2 : k * 2 = 2 * m := by exact_mod_cast h1
    omega
  · rw [hidx, show m - 1 + 1 = m by omega, List.length_take, min_eq_left hP, hm2]

/-- C1 counterexample.  With `n_bins = 4` (and unit frequency scale) the
truncated frequency array has 2 entries, not `4/2 + 1 = 3`: the claim's
retained length `n_bins/2 + 1` is wrong on the code. -/
theorem claim_C1_counter :
    (freq_trunc 4 1).length = 2 ∧ (freq_trunc 4 1).length ≠ 4 / 2 + 1 := by
  have h : (freq_trunc (2 * 2) 1).length = 2 :=
    (freq_trunc_eq 2 1 (by norm_num) (by norm_num)).2
  have h4 : freq_trunc 4 1 = freq_trunc (2 * 2) 1 := rfl
  rw [h4, h]
  exact ⟨rfl, by decide⟩

/-- C1 witness at `n_bins = 4`, scale 1, `power_avg` of length 2. -/
theorem claim_C1_witness :
    freq_trunc (2 * 2) 1 =
      (List.range 2).map (fun (k : ℕ) => (k : ℚ) / ((2 * 2 : ℕ) : ℚ) * ((1 : ℤ) : ℚ)) ∧
    (freq_trunc (2 * 2) 1).length = 2 * 2 / 2 ∧
    (freq_trunc (2 * 2) 1).head? = some 0 ∧
    List.Pairwise (fun x y => x < y) (freq_trunc (2 * 2) 1) ∧
    ((1 : ℤ) : ℚ) / 2 ∉ freq_trunc (2 * 2) 1 ∧
    (([0, 0] : List ℚ).take (max_index (freq_list (2 * 2) 1) + 1)).length = 2 * 2 / 2 :=
  claim_C1 2 1 [0, 0] (by norm_num) (by norm_num) (by simp)

/-- C2 (corrected).  The segmenter walks non-overlapping windows of exactly
`nb` samples, but the strict loop bound `j < len` makes it process exactly
`(len - 1) / nb` segments, not `len / nb`: when `len` is an exact multiple
of `nb` the final full window is dropped. -/
theorem claim_C2 (len nb : ℕ) (h : 1 ≤ nb) :
    segments len nb =
      (List.range ((len - 1) / nb)).map (fun k => (k * nb, k * nb + nb)) ∧
    num_segments len nb = (len - 1) / nb :=
  ⟨segments_eq len nb h, num_segments_eq len nb h⟩

/-- C2 counterexample.  A light curve of exactly one segment length
(`len = n_bins = 4`) yields zero processed segments, not
`floor(len/n_bins) = 1`, and its samples belong to no processed segment. -/
theorem claim_C2_counter :
    num_segments 4 4 = 0 ∧ 4 / 4 = 1 ∧ num_segments 4 4 ≠ 4 / 4 := by
  decide

/-- C2 witness at `len = 10`, `nb = 3` (three full segments, remainder 1
dropped). -/
theorem claim_C2_witness :
    segments 10 3 =
      (List.range ((10 - 1) / 3)).map (fun k => (k * 3, k * 3 + 3)) ∧
    num_segments 10 3 = (10 - 1) / 3 :=
  claim_C2 10 3 (by norm_num)

/-- C3 (corrected).  For every completed run of the rebinner with
`rebin_const ≥ 1`, the emitted groups form an adjacent chain: each group
`[prev_m, current_m)` is nonempty and starts exactly where the previous one
ended — but the chain starts at original index 0, NOT 1: the first group is
`[0, 1)` and contains the DC bin (the source comment at lines 124-125 keeps
the first data point on purpose). -/
theorem claim_C3 (A B F : List ℚ) (c : ℚ) (L fuel : ℕ) (s1 : RebinState)
    (hc : 1 ≤ c) (h : rebin_run A B F c L fuel = some (Except.ok s1)) :
    chainFrom 0 s1.groups s1.prev_m = true :=
  rebin_loop_chain A B F c L hc fuel rebin_start s1 0 (by norm_num [rebin_start])
    (by norm_num [rebin_start]) (by decide) h

/-- C3 counterexample.  On a concrete run the first emitted group is
`(0, 1)`: it starts at original index 0 and contains the DC bin, refuting
the claim that the first group starts at original index 1. -/
theorem claim_C3_counter :
    rebin_run [10, 20, 30, 40] [1, 2, 3, 4] [0, 7, 11, 13] (11 / 10) 4 4 =
      some (Except.ok stateA) ∧
    stateA.groups.head? = some (0, 1) ∧ (0 : ℤ) ≠ 1 :=
  ⟨rebin_evalA, by norm_num [stateA], by decide⟩

/-- C3 witness on the concrete `stateA` run. -/
theorem claim_C3_witness :
    chainFrom 0 stateA.groups stateA.prev_m = true :=
  claim_C3 [10, 20, 30, 40] [1, 2, 3, 4] [0, 7, 11, 13] (11 / 10) 4 4 stateA
    (by norm_num) rebin_evalA

/-- C4 (corrected).  When every emitted group has `bin_range = 1`, the
rebinned spectrum is a prefix of the unbinned spectrum STARTING AT THE DC
BIN: the j-th output triple (0-based) is
`(freq[j], rms[j], rms_err[j])` for `j` below the number of outputs (which
is at most `L - 1`), not the triples for original indices `1 .. L-1`.  The
third column is stored squared (`rms_err[j]^2`), as the source applies
`math.sqrt` last, so the emitted error is `|rms_err[j]|`. -/
theorem claim_C4 (A B F : List ℚ) (c : ℚ) (L fuel : ℕ) (s1 : RebinState)
    (hc : 1 ≤ c) (hA : L ≤ A.length) (hB : L ≤ B.length) (hF : L ≤ F.length)
    (h : rebin_run A B F c L fuel = some (Except.ok s1))
    (hUnit : ∀ g ∈ s1.groups, g.2 = g.1 + 1) :
    s1.rebinned_freq = unbinned_prefix F s1.prev_m.toNat ∧
    s1.rebinned_rms_power = unbinned_prefix A s1.prev_m.toNat ∧
    s1.err_rebinned_power_sq =
      (List.range s1.prev_m.toNat).map (fun k => (B.getD k 0) ^ 2) ∧
    s1.rebinned_freq.length ≤ L - 1 := by
  obtain ⟨hmono, hgroups, hfreq, hpow, herr⟩ :=
    rebin_loop_unit A B F c L hc hA hB hF fuel rebin_start s1
      (by norm_num [rebin_start]) (by norm_num [rebin_start])
      (by norm_num [rebin_start]) h hUnit
  have hp0 : (0 : ℤ) ≤ s1.prev_m := by
    have h0 : rebin_start.prev_m = 0 := rfl
    omega
  simp only [show rebin_start.prev_m = 0 from rfl,
    show rebin_start.rebinned_freq = [] from rfl,
    show rebin_start.rebinned_rms_power = [] from rfl,
    show rebin_start.err_rebinned_power_sq = [] from rfl,
    List.nil_append] at hfreq hpow herr
  refine ⟨?_, ?_, ?_, ?_⟩
  · rw [hfreq, pyRange_zero_getD F s1.prev_m hp0]
  · rw [hpow, pyRange_zero_getD A s1.prev_m hp0]
  · rw [herr, pyRange_zero_getD_sq B s1.prev_m hp0]
  · obtain ⟨e1, _, _, _⟩ :=
      rebin_loop_len A B F c L hc fuel rebin_start s1 (by norm_num [rebin_start]) h
    simp only [show rebin_start.rebinned_freq = [] from rfl,
      show rebin_start.current_m = (1 : ℤ) from rfl, List.length_nil] at e1
    have h8 : max (0 : ℤ) ((L : ℤ) - 1) ≤ ((L - 1 : ℕ) : ℤ) :=
      max_le (by omega) (by omega)
    omega

/-- C4 counterexample.  A concrete all-unit-groups run: the first output
triple is `(freq[0], rms[0], ...) = (0, 10, ...)`, not the claim's
`(freq[1], rms[1], ...) = (7, 20, ...)`. -/
theorem claim_C4_counter :
    rebin_run [10, 20, 30, 40] [1, 2, 3, 4] [0, 7, 11, 13] (11 / 10) 4 4 =
      some (Except.ok stateA) ∧
    stateA.rebinned_freq.head? = some 0 ∧ stateA.rebinned_rms_power.head? = some 10 ∧
    ¬(stateA.rebinned_freq.head? = some 7 ∧ stateA.rebinned_rms_power.head? = some 20) :=
  ⟨rebin_evalA, by norm_num [stateA], by norm_num [stateA], by norm_num [stateA]⟩

/-- C4 witness on the concrete `stateA` run (all its groups are unit). -/
theorem claim_C4_witness :
    stateA.rebinned_freq = unbinned_prefix [0, 7, 11, 13] stateA.prev_m.toNat ∧
    stateA.rebinned_rms_power = unbinned_prefix [10, 20, 30, 40] stateA.prev_m.toNat ∧
    stateA.err_rebinned_power_sq =
      (List.range stateA.prev_m.toNat).map (fun k => (([1, 2, 3, 4] : List ℚ).getD k 0) ^ 2) ∧
    stateA.rebinned_freq.length ≤ 4 - 1 :=
  claim_C4 [10, 20, 30, 40] [1, 2, 3, 4] [0, 7, 11, 13] (11 / 10) 4 4 stateA
    (by norm_num) (by simp) (by simp) (by simp) rebin_evalA
    (by intro g hg; simp [stateA] at hg; rcases hg with rfl | rfl | rfl <;> norm_num)

/-- C5 (corrected).  When the time series yields zero full segments the
pipeline does NOT raise a dedicated `InsufficientDataError` (no such error
exists in the source); it performs the averaging division with
`num_segments = 0` and dies with Python's ZeroDivisionError — it does
divide by zero (though no NaN/garbage is produced, since the division
raises). -/
theorem claim_C5 (len nb : ℕ) (P : List ℚ) (r : ℚ) (h1 : 1 ≤ nb) (h2 : len ≤ nb) :
    num_segments len nb = 0 ∧
    averaging P r (num_segments len nb) = Except.error PyErr.zeroDivisionError := by
  have h0 : num_segments len nb = 0 := by
    rw [num_segments_eq len nb h1]
    exact Nat.div_eq_of_lt (by omega)
  exact ⟨h0, by rw [h0]; rfl⟩

/-- C5 counterexample.  A light curve of one exact segment length gives
`num_segments = 0` and the averaging step raises ZeroDivisionError — the
division by zero the claim says must not happen (and no
`InsufficientDataError` is involved). -/
theorem claim_C5_counter :
    num_segments 4 4 = 0 ∧
    averaging [0, 0, 0, 0] 0 (num_segments 4 4) =
      Except.error PyErr.zeroDivisionError := by
  refine ⟨by decide, ?_⟩
  rw [show num_segments 4 4 = 0 by decide]
  rfl

/-- C5 witness at `len = 3 < nb = 4`. -/
theorem claim_C5_witness :
    num_segments 3 4 = 0 ∧
    averaging [1, 2] 5 (num_segments 3 4) = Except.error PyErr.zeroDivisionError :=
  claim_C5 3 4 [1, 2] 5 (by norm_num) (by norm_num)

/-- C6 (corrected).  The normalizer's denominator as written in the source
is `(1.0/dt) * num_seconds`, NOT `n_bins = num_seconds * int(1.0/dt)`.  The
two agree exactly — and the claim's formulas hold — exactly when `1/dt` is
an integer (so `int` truncates nothing); this theorem proves the agreement
under that hypothesis for all three outputs. -/
theorem claim_C6 (P E : List ℚ) (dt : ℚ) (ns : ℤ) (mean : ℚ)
    (h : ((pyInt (1 / dt) : ℤ) : ℚ) = 1 / dt) :
    leahy_power_avg P dt ns mean = spec_leahy P dt (n_bins ns dt) mean ∧
    rms_power_avg P dt ns mean = spec_rms P dt (n_bins ns dt) mean ∧
    rms_err_power E dt ns mean = spec_rms_err E dt (n_bins ns dt) mean := by
  have hnb : ((n_bins ns dt : ℤ) : ℚ) = 1 / dt * (ns : ℚ) := by
    unfold n_bins
    push_cast
    rw [h]
    ring
  refine ⟨?_, ?_, ?_⟩ <;>
    · first
      | unfold leahy_power_avg spec_leahy
      | unfold rms_power_avg spec_rms
      | unfold rms_err_power spec_rms_err
      apply List.map_congr_left
      intro x _
      rw [hnb]

/-- C6 counterexample.  With `dt = 3/10` (`1/dt = 10/3`, truncated to 3 by
`int`), `n_bins = 6` but the code divides by `(10/3)*2 = 20/3`: the Leahy
output differs from the claim's `n_bins`-denominator formula
(`9/100` versus `1/10` on `avg_power = [1]`). -/
theorem claim_C6_counter :
    leahy_power_avg [1] (3 / 10) 2 1 ≠ spec_leahy [1] (3 / 10) (n_bins 2 (3 / 10)) 1 := by
  have hnb : n_bins 2 (3 / 10) = 6 := by
    norm_num [n_bins, pyInt]
  rw [hnb]
  norm_num [leahy_power_avg, spec_leahy]

/-- C6 witness at `dt = 1/2`, `num_seconds = 2`. -/
theorem claim_C6_witness :
    leahy_power_avg [5] (1 / 2) 2 3 = spec_leahy [5] (1 / 2) (n_bins 2 (1 / 2)) 3 ∧
    rms_power_avg [5] (1 / 2) 2 3 = spec_rms [5] (1 / 2) (n_bins 2 (1 / 2)) 3 ∧
    rms_err_power [7] (1 / 2) 2 3 = spec_rms_err [7] (1 / 2) (n_bins 2 (1 / 2)) 3 :=
  claim_C6 [5] [7] (1 / 2) 2 3 (by norm_num [pyInt])

/-- C7 (corrected).  Before any data is read the program checks (by
`assert`) only: `num_seconds > 0`, `rebin_const ≥ 1`, and that
`num_seconds` ITSELF is a power of two.  It does not validate `n_bins`
(which cannot be computed yet — `dt` is read from the data file later) and
it never checks `dt`.  For `num_seconds ≤ 2^31` the checks pass exactly on
positive powers-of-two seconds with `rebin_const ≥ 1`, for every `dt`. -/
theorem claim_C7 (ns : ℤ) (rc : ℚ) (h : ns ≤ 2 ^ 31) :
    main_checks ns rc = true ↔ 0 < ns ∧ 1 ≤ rc ∧ ∃ k : ℕ, ns = 2 ^ k :=
  main_checks_iff ns rc h

/-- C7 counterexample.  With `num_seconds = 2`, `rebin_const = 1` and
`dt = 3/10 > 0`, the computed `n_bins = 2 * int(10/3) = 6` is not a power
of two, yet all the validation passes (`main_checks = true`): the claim
that the program fails when `n_bins` is not a power of two is wrong — the
check is on `num_seconds`, and `dt` is never checked. -/
theorem claim_C7_counter :
    main_checks 2 1 = true ∧ n_bins 2 (3 / 10) = 6 ∧ (0 : ℚ) < 3 / 10 ∧
    ¬∃ k : ℕ, (6 : ℤ) = 2 ^ k := by
  refine ⟨?_, by norm_num [n_bins, pyInt], by norm_num, ?_⟩
  · norm_num [main_checks, power_of_two, pot_loop]
  · rintro ⟨k, hk⟩
    have hlt : k < 3 := by
      by_contra hge
      push_neg at hge
      have h8 : (2 : ℤ) ^ 3 ≤ 2 ^ k := pow_le_pow_right (by norm_num) hge
      norm_num at h8
      omega
    interval_cases k <;> norm_num at hk

/-- C7 witness at `num_seconds = 4`, `rebin_const = 3/2`. -/
theorem claim_C7_witness :
    main_checks 4 (3 / 2) = true ↔
      0 < (4 : ℤ) ∧ (1 : ℚ) ≤ 3 / 2 ∧ ∃ k : ℕ, (4 : ℤ) = 2 ^ k :=
  claim_C7 4 (3 / 2) (by norm_num)

/-- C8 (confirmed).  For every rebin constant `c ≥ 1` and every input
length `L`, the rebinning loop terminates within fuel `L` (each iteration
advances `current_m` by `round(real_index) ≥ 1`, and the loop runs only
while `current_m < L`), and a successful run emits at most `L - 1` entries
in each output column. -/
theorem claim_C8 (A B F : List ℚ) (c : ℚ) (L : ℕ) (hc : 1 ≤ c) :
    rebin_run A B F c L L ≠ none ∧
    ∀ s1, rebin_run A B F c L L = some (Except.ok s1) →
      s1.rebinned_freq.length ≤ L - 1 ∧ s1.rebinned_rms_power.length ≤ L - 1 ∧
      s1.err_rebinned_power_sq.length ≤ L - 1 ∧ s1.groups.length ≤ L - 1 := by
  constructor
  · obtain ⟨r, hr⟩ := rebin_loop_total A B F c L hc L rebin_start
      (by norm_num [rebin_start]) (by rw [show rebin_start.current_m = 1 from rfl]; omega)
    unfold rebin_run
    rw [hr]
    simp
  · intro s1 h
    obtain ⟨e1, e2, e3, e4⟩ := rebin_loop_len A B F c L hc L rebin_start s1
      (by norm_num [rebin_start]) h
    simp only [show rebin_start.rebinned_freq = [] from rfl,
      show rebin_start.rebinned_rms_power = [] from rfl,
      show rebin_start.err_rebinned_power_sq = [] from rfl,
      show rebin_start.groups = [] from rfl,
      show rebin_start.current_m = (1 : ℤ) from rfl, List.length_nil] at e1 e2 e3 e4
    have h8 : max (0 : ℤ) ((L : ℤ) - 1) ≤ ((L - 1 : ℕ) : ℤ) :=
      max_le (by omega) (by omega)
    refine ⟨by omega, by omega, by omega, by omega⟩

/-- C8 witness at `c = 3/2`, `L = 3` on concrete length-3 inputs. -/
theorem claim_C8_witness :
    rebin_run [1, 2, 3] [1, 1, 1] [0, 1, 2] (3 / 2) 3 3 ≠ none ∧
    ∀ s1, rebin_run [1, 2, 3] [1, 1, 1] [0, 1, 2] (3 / 2) 3 3 =
        some (Except.ok s1) →
      s1.rebinned_freq.length ≤ 3 - 1 ∧ s1.rebinned_rms_power.length ≤ 3 - 1 ∧
      s1.err_rebinned_power_sq.length ≤ 3 - 1 ∧ s1.groups.length ≤ 3 - 1 :=
  claim_C8 [1, 2, 3] [1, 1, 1] [0, 1, 2] (3 / 2) 3 (by norm_num)

/-- C9 (confirmed).  In exact arithmetic, the DC power of every nonempty
segment vanishes: the demeaned rates sum to zero, so DFT bin 0 — the plain
sum of the inputs — is zero and its squared modulus is zero.  (The source
only reaches floating-point rounding distance of this.) -/
theorem claim_C9 (rate : List ℚ) (h : rate ≠ []) : power_segment_bin0 rate = 0 := by
  have hlen : (rate.length : ℚ) ≠ 0 :=
    Nat.cast_ne_zero.mpr (fun hh => h (List.length_eq_zero.mp hh))
  unfold power_segment_bin0 fft_bin0 rate_sub_mean mean_rate_segment
  rw [sum_map_sub_const]
  have hcancel : (rate.length : ℚ) * (rate.sum / (rate.length : ℚ)) = rate.sum := by
    field_simp
  rw [hcancel]
  ring

/-- C9 witness on the segment `[3, 5]`. -/
theorem claim_C9_witness : power_segment_bin0 [3, 5] = 0 :=
  claim_C9 [3, 5] (by simp)

/-- C10 (corrected).  With the documented precondition `rebin_const ≥ 1`
and the three input lists of length at least `length_of_list`, every
subscript of `geometric_rebinning` stays in bounds and the run completes
without IndexError (or any other error).  Without that precondition the
claim is false — see the counterexample with `rebin_const = -2`. -/
theorem claim_C10 (A B F : List ℚ) (c : ℚ) (L : ℕ) (hc : 1 ≤ c)
    (hA : L ≤ A.length) (hB : L ≤ B.length) (hF : L ≤ F.length) :
    ∃ s1, rebin_run A B F c L L = some (Except.ok s1) := by
  unfold rebin_run
  exact rebin_loop_ok A B F c L hc hA hB hF L rebin_start
    (by norm_num [rebin_start]) (by norm_num [rebin_start])
    (by norm_num [rebin_start])
    (by rw [show rebin_start.current_m = 1 from rfl]; omega)

/-- C10 counterexample.  With `rebin_const = -2` and length-4 inputs the
run raises IndexError (the fourth iteration reads `freq[-5]`, out of range
even under Python's negative-index wrapping): the claim's `for any
rebin_const` is wrong. -/
theorem claim_C10_counter :
    ([(1 : ℚ), 1, 1, 1].length = 4) ∧ ([(0 : ℚ), 1, 2, 3].length = 4) ∧
    rebin_run [1, 1, 1, 1] [1, 1, 1, 1] [0, 1, 2, 3] (-2) 4 5 =
      some (Except.error PyErr.indexError) :=
  ⟨by simp, by simp, rebin_evalB⟩

/-- C10 witness at `c = 2`, `L = 2` on concrete length-2 inputs. -/
theorem claim_C10_witness :
    ∃ s1, rebin_run [1, 1] [1, 1] [0, 1] 2 2 2 = some (Except.ok s1) :=
  claim_C10 [1, 1] [1, 1] [0, 1] 2 2 (by norm_num) (by simp) (by simp) (by simp)
